import Mathlib

/-!
Shallow embedding of the validation-inference pipeline of `living-contracts`
(`packages/ai-inference/src`): the statistical analyzer, the AI pattern
recognizer, and the aggregating `inferRules` service.

JavaScript optional object slots distinguish `undefined` from `null`; the
source tests them with `!== undefined` and truthiness, so the embedding keeps
the three-valued slot type `JOpt`.  Data-store queries and classifier calls
are oracles (`DB`, `Classifier`) returning `Except` (a thrown exception is
`.error`); every operation additionally emits an event trace recording which
queries, classifier calls and rate-limit sleeps happened, in order.
-/

namespace LivingContracts

/-- A JavaScript optional slot: `undef` (property absent / `undefined`),
`null`, or an actual value. -/
inductive JOpt (α : Type) : Type where
  | undef : JOpt α
  | null : JOpt α
  | val : α → JOpt α
deriving DecidableEq, Repr

/-- `x !== undefined` in JavaScript. -/
def JOpt.isDefined {α : Type} : JOpt α → Bool
  | .undef => false
  | _ => true

/-- Conversion of a SQL result (`NULL` or a value) into the slot written by
`stats.min = result.rows[0].min`: SQL `NULL` becomes JS `null`. -/
def JOpt.ofSql {α : Type} : Option α → JOpt α
  | none => JOpt.null
  | some v => JOpt.val v

/-- A field of a Prisma model (DMMF shape): `kind` is `"scalar"`, `"enum"` or
`"object"` (relation); `type` is the declared type tag. -/
structure Field where
  name : String
  dbName : Option String := none
  type : String
  kind : String
  isRequired : Bool
  isList : Bool := false
deriving DecidableEq, Repr

/-- A Prisma model: name, optional physical table name, fields. -/
structure Model where
  name : String
  dbName : Option String := none
  fields : List Field
deriving DecidableEq, Repr

/-- `FieldStats` from `types.ts`; every slot starts out absent (`undefined`). -/
structure FieldStats where
  min : JOpt Int := JOpt.undef
  max : JOpt Int := JOpt.undef
  minLength : JOpt Int := JOpt.undef
  maxLength : JOpt Int := JOpt.undef
  distinctCount : JOpt Nat := JOpt.undef
  distinctValues : JOpt (List String) := JOpt.undef
  hasNulls : JOpt Bool := JOpt.undef
deriving DecidableEq, Repr

/-- `ValidationRule` from `packages/types`: `min`, `max`, `pattern` are
optional slots, the rest are always set by `inferRules`. -/
structure ValidationRule where
  field : String
  type : String
  nullable : Bool
  unique : Bool
  examples : List String
  min : JOpt Int := JOpt.undef
  max : JOpt Int := JOpt.undef
  pattern : JOpt String := JOpt.undef
deriving DecidableEq, Repr

/-- Structured object returned by the classifier (`PatternSchema`):
`pattern` is nullable, `format` optional, `description` required. -/
structure RawPattern where
  pattern : Option String
  format : Option String := none
  description : String
deriving DecidableEq, Repr

/-- `PatternInferenceResult` from `types.ts` (all slots may be `undefined`,
never `null`, because the recognizer normalises with `|| undefined`). -/
structure PatternInferenceResult where
  pattern : Option String := none
  format : Option String := none
  description : Option String := none
deriving DecidableEq, Repr

/-- Observable events of one inference run, in program order. -/
inductive Event : Type where
  | dbNullCount : String → String → Event
  | dbSample : String → String → Nat → Event
  | dbMinMax : String → String → Event
  | dbDistinct : String → String → Event
  | dbAiSample : String → String → Nat → Event
  | classify : String → String → List String → Event
  | sleep : ℚ → Event
deriving DecidableEq

/-- The data-store query interface used by the pipeline.  Each operation may
throw (`.error`), matching a rejected `pg`/Prisma promise:
* `nullCountQ t c` — `SELECT COUNT(*) FROM t WHERE c IS NULL`;
* `sampleQ t c n` — `SELECT c FROM t WHERE c IS NOT NULL LIMIT n`;
* `minMaxQ t c` — `SELECT MIN(c), MAX(c) FROM t` (`none` = SQL `NULL`);
* `distinctQ t c` — `SELECT DISTINCT c FROM t WHERE c IS NOT NULL`;
* `aiSampleQ t c n` — `SELECT DISTINCT c FROM t WHERE c IS NOT NULL LIMIT n`. -/
structure DB where
  nullCountQ : String → String → Except String Nat
  sampleQ : String → String → Nat → Except String (List String)
  minMaxQ : String → String → Except String (Option Int × Option Int)
  distinctQ : String → String → Except String (List String)
  aiSampleQ : String → String → Nat → Except String (List String)

/-- The external generative classifier: model name, field name, samples ↦
structured result or a thrown error. -/
abbrev Classifier : Type := String → String → List String → Except String RawPattern

/-- `model.dbName || model.name`. -/
def tableName (m : Model) : String := m.dbName.getD m.name

/-- `field.dbName || field.name`. -/
def colName (f : Field) : String := f.dbName.getD f.name

/-- The numeric type family dispatched to the min/max aggregate
(`['Int', 'Float', 'Decimal', 'BigInt'].includes(field.type)`). -/
def numericTypes : List String := ["Int", "Float", "Decimal", "BigInt"]

/-- JavaScript `s.startsWith(p)`, as a character-prefix test (kept
kernel-reducible, unlike the byte-level library function). -/
def strStartsWith (s p : String) : Bool := List.isPrefixOf p.data s.data

/-- `StatisticalAnalyzer.analyze`: null-presence check for optional fields,
then type dispatch (string sample, numeric aggregate, enum distinct); the
whole body is inside one `try`, and on a thrown query the stats collected so
far are returned.  Also returns the trace of queries attempted. -/
def analyze (db : DB) (model : Model) (field : Field) : FieldStats × List Event :=
  let mn := tableName model
  let fn := colName field
  let step1 : FieldStats × List Event × Bool :=
    if field.isRequired then ({}, [], true)
    else
      match db.nullCountQ mn fn with
      | .ok n => ({ hasNulls := JOpt.val (decide (0 < n)) }, [Event.dbNullCount mn fn], true)
      | .error _ => ({}, [Event.dbNullCount mn fn], false)
  match step1 with
  | (s, tr, false) => (s, tr)
  | (s, tr, true) =>
    if field.type = "String" then
      match db.sampleQ mn fn 1000 with
      | .error _ => (s, tr ++ [Event.dbSample mn fn 1000])
      | .ok [] => (s, tr ++ [Event.dbSample mn fn 1000])
      | .ok (v :: vs) =>
        let ls := vs.map (fun x => (x.length : Int))
        ({ s with minLength := JOpt.val (ls.foldl min (v.length : Int)),
                  maxLength := JOpt.val (ls.foldl max (v.length : Int)) },
         tr ++ [Event.dbSample mn fn 1000])
    else if field.type ∈ numericTypes then
      match db.minMaxQ mn fn with
      | .error _ => (s, tr ++ [Event.dbMinMax mn fn])
      | .ok (lo, hi) =>
        ({ s with min := JOpt.ofSql lo, max := JOpt.ofSql hi },
         tr ++ [Event.dbMinMax mn fn])
    else if strStartsWith field.type "Enum_" then
      match db.distinctQ mn fn with
      | .error _ => (s, tr ++ [Event.dbDistinct mn fn])
      | .ok vs =>
        ({ s with distinctValues := JOpt.val vs, distinctCount := JOpt.val vs.length },
         tr ++ [Event.dbDistinct mn fn])
    else (s, tr)

/-- JavaScript `Array.from(new Set(l))`: deduplicate keeping the first
occurrence of each element, preserving first-seen order. -/
def jsDedup {α : Type} [DecidableEq α] : List α → List α
  | [] => []
  | x :: xs => x :: (jsDedup xs).filter (fun y => y ≠ x)

/-- JavaScript `x || undefined` on a nullable string: `null` and the falsy
empty string both become `undefined`. -/
def jsOrUndef : Option String → Option String
  | none => none
  | some s => if s = "" then none else some s

/-- `AIPatternRecognizer.inferPattern`: drop null/undefined values,
deduplicate, truncate to 50 samples; return `null` without contacting the
classifier when nothing remains; otherwise call the classifier, catching any
thrown error as `null`.  Also returns the trace (one `classify` event iff the
external service was contacted). -/
def inferPattern (cl : Classifier) (modelName fieldName : String)
    (values : List (Option String)) :
    Option PatternInferenceResult × List Event :=
  if values.isEmpty then (none, [])
  else
    let uniqueValues := jsDedup (values.filterMap id)
    let samples := uniqueValues.take 50
    if samples.isEmpty then (none, [])
    else
      match cl modelName fieldName samples with
      | .error _ => (none, [Event.classify modelName fieldName samples])
      | .ok obj =>
        (some { pattern := jsOrUndef obj.pattern,
                format := obj.format,
                description := some obj.description },
         [Event.classify modelName fieldName samples])

/-- The `if (rule.min !== undefined || rule.max !== undefined ||
rule.pattern !== undefined)` emission guard of `inferRules`
("only add rule if we found something useful"). -/
def ruleUseful (r : ValidationRule) : Bool :=
  r.min.isDefined || r.max.isDefined || r.pattern.isDefined

/-- The statistical-evidence merge of `inferRules`: the initial rule object
(`field`/`type`/`nullable`/`unique`/`examples`) followed by the four
`if (stats.x !== undefined) rule.y = stats.x` copy lines, in source order
(length bounds overwrite numeric bounds in the shared `min`/`max` slots). -/
def mergeStats (field : Field) (stats : FieldStats) : ValidationRule :=
  let rule0 : ValidationRule :=
    { field := field.name, type := field.type, nullable := !field.isRequired,
      unique := false, examples := [] }
  let r1 := if stats.min.isDefined then { rule0 with min := stats.min } else rule0
  let r2 := if stats.max.isDefined then { r1 with max := stats.max } else r1
  let r3 := if stats.minLength.isDefined then { r2 with min := stats.minLength } else r2
  if stats.maxLength.isDefined then { r3 with max := stats.maxLength } else r3

/-- The per-field body of `inferRules` up to (not including) the emission
guard: initial rule object, statistical evidence merge, then the AI pattern
step for non-list `String` fields.  The AI-sample query is not inside any
`try`, so its error propagates (`.error`). -/
def buildRule (db : DB) (cl : Classifier) (delayMs : ℚ) (sampleSize : Nat)
    (model : Model) (field : Field) : Except String ValidationRule × List Event :=
  let sres := analyze db model field
  let r4 := mergeStats field sres.1
  if field.type = "String" && !field.isList then
    let tn := tableName model
    let cn := colName field
    match db.aiSampleQ tn cn sampleSize with
    | .error e => (.error e, sres.2 ++ [Event.dbAiSample tn cn sampleSize])
    | .ok values =>
      if values.length > 0 then
        let ares := inferPattern cl model.name field.name (values.map some)
        let tr := sres.2 ++ [Event.dbAiSample tn cn sampleSize] ++ ares.2
                    ++ [Event.sleep delayMs]
        match ares.1 with
        | some ar =>
          match ar.pattern with
          | some p =>
            if p = "" then (.ok r4, tr) else (.ok { r4 with pattern := JOpt.val p }, tr)
          | none => (.ok r4, tr)
        | none => (.ok r4, tr)
      else (.ok r4, sres.2 ++ [Event.dbAiSample tn cn sampleSize])
  else (.ok r4, sres.2)

/-- One iteration of the field loop of `inferRules`: relation (`"object"`)
fields are skipped before anything runs; otherwise the candidate rule is
built and appended (`some`) exactly when the emission guard passes. -/
def processField (db : DB) (cl : Classifier) (delayMs : ℚ) (sampleSize : Nat)
    (model : Model) (field : Field) :
    Except String (Option ValidationRule) × List Event :=
  if field.kind = "object" then (.ok none, [])
  else
    match buildRule db cl delayMs sampleSize model field with
    | (.error e, tr) => (.error e, tr)
    | (.ok r, tr) => (.ok (if ruleUseful r then some r else none), tr)

/-- The field loop of `inferRules` over one model, accumulating `modelRules`
in field order; a propagated error aborts the run. -/
def processFields (db : DB) (cl : Classifier) (delayMs : ℚ) (sampleSize : Nat)
    (model : Model) : List Field → Except String (List ValidationRule) × List Event
  | [] => (.ok [], [])
  | f :: fs =>
    match processField db cl delayMs sampleSize model f with
    | (.error e, tr) => (.error e, tr)
    | (.ok none, tr) =>
      let rest := processFields db cl delayMs sampleSize model fs
      (rest.1, tr ++ rest.2)
    | (.ok (some rule), tr) =>
      let rest := processFields db cl delayMs sampleSize model fs
      (match rest.1 with
       | .error e => .error e
       | .ok rs => .ok (rule :: rs), tr ++ rest.2)

/-- The rule map: association list in JS `Map` insertion order. -/
abbrev RuleMap : Type := List (String × List ValidationRule)

/-- JS `Map.prototype.set`: overwrite in place if the key exists, else append. -/
def mapSet (m : RuleMap) (k : String) (v : List ValidationRule) : RuleMap :=
  if m.any (fun p => p.1 = k) then
    m.map (fun p => if p.1 = k then (k, v) else p)
  else m ++ [(k, v)]

/-- JS `Map.prototype.get` on the association list. -/
def mapGet (m : RuleMap) (k : String) : Option (List ValidationRule) :=
  (m.find? (fun p => p.1 = k)).map (fun p => p.2)

/-- The model loop of `inferRules`: a model is inserted into the map only if
its rule list is non-empty. -/
def inferRulesAux (db : DB) (cl : Classifier) (delayMs : ℚ) (sampleSize : Nat) :
    List Model → RuleMap → Except String RuleMap × List Event
  | [], acc => (.ok acc, [])
  | m :: ms, acc =>
    match processFields db cl delayMs sampleSize m m.fields with
    | (.error e, tr) => (.error e, tr)
    | (.ok rules, tr) =>
      let acc2 := if rules.isEmpty then acc else mapSet acc m.name rules
      let rest := inferRulesAux db cl delayMs sampleSize ms acc2
      (rest.1, tr ++ rest.2)

/-- The recognized configuration options (`Partial<InferenceConfig>`). -/
structure InferenceConfig where
  sampleSize : Option Nat := none
  requestsPerMinute : Option Nat := none
deriving DecidableEq, Repr

/-- `this.config.requestsPerMinute || 10` (JS `||`: `0` is falsy). -/
def rpmOf (c : InferenceConfig) : Nat :=
  match c.requestsPerMinute with
  | some n => if n = 0 then 10 else n
  | none => 10

/-- `const delayMs = (60 * 1000) / rpm` (JS number division, exact here). -/
def delayMsOf (c : InferenceConfig) : ℚ := (60 * 1000 : ℚ) / (rpmOf c : ℚ)

/-- `this.config.sampleSize || 50` (JS `||`: `0` is falsy). -/
def sampleSizeOf (c : InferenceConfig) : Nat :=
  match c.sampleSize with
  | some n => if n = 0 then 50 else n
  | none => 50

/-- `ValidationInferenceService.inferRules`: the sole public entry point. -/
def inferRules (db : DB) (cl : Classifier) (config : InferenceConfig)
    (models : List Model) : Except String RuleMap × List Event :=
  inferRulesAux db cl (delayMsOf config) (sampleSizeOf config) models []

/-! ### A concrete data store with honest SQL query semantics -/

/-- One cell of a column: SQL `NULL`, an integer, or a string. -/
inductive Cell : Type where
  | null : Cell
  | int : Int → Cell
  | str : String → Cell
deriving DecidableEq, Repr

/-- A concrete data store: (table, column) ↦ rows, in row order. -/
abbrev Store : Type := String → String → List Cell

/-- The non-null integer values of a column. -/
def nonNullInts (l : List Cell) : List Int :=
  l.filterMap (fun c => match c with | Cell.int i => some i | _ => none)

/-- The non-null string values of a column. -/
def nonNullStrs (l : List Cell) : List String :=
  l.filterMap (fun c => match c with | Cell.str s => some s | _ => none)

/-- The number of SQL `NULL` cells of a column. -/
def nullCount (l : List Cell) : Nat := (l.filter (fun c => c = Cell.null)).length

/-- SQL `MIN` over a column's non-null values (`NULL` on an empty input). -/
def sqlMin : List Int → Option Int
  | [] => none
  | x :: xs => some (xs.foldl min x)

/-- SQL `MAX` over a column's non-null values (`NULL` on an empty input). -/
def sqlMax : List Int → Option Int
  | [] => none
  | x :: xs => some (xs.foldl max x)

/-- The `DB` interface a concrete store presents: every query succeeds and
has textbook SQL semantics over the full stored column. -/
def dbOfStore (st : Store) : DB where
  nullCountQ := fun t c => .ok (nullCount (st t c))
  sampleQ := fun t c n => .ok ((nonNullStrs (st t c)).take n)
  minMaxQ := fun t c => .ok (sqlMin (nonNullInts (st t c)), sqlMax (nonNullInts (st t c)))
  distinctQ := fun t c => .ok (jsDedup (nonNullStrs (st t c)))
  aiSampleQ := fun t c n => .ok ((jsDedup (nonNullStrs (st t c))).take n)

/-! ### Trace accounting -/

/-- Total milliseconds slept in a trace. -/
def totalSleep : List Event → ℚ
  | [] => 0
  | Event.sleep q :: rest => q + totalSleep rest
  | _ :: rest => totalSleep rest

/-- Number of classifier calls in a trace. -/
def numClassify : List Event → Nat
  | [] => 0
  | Event.classify _ _ _ :: rest => 1 + numClassify rest
  | _ :: rest => numClassify rest

/-- Every classifier call in the trace is immediately followed by a sleep of
exactly `d` milliseconds. -/
def sleepAfterClassify (d : ℚ) : List Event → Bool
  | [] => true
  | Event.classify _ _ _ :: Event.sleep q :: rest =>
    (q = d) && sleepAfterClassify d (Event.sleep q :: rest)
  | Event.classify _ _ _ :: _ => false
  | _ :: rest => sleepAfterClassify d rest

/-! ### Basic lemmas about the helper functions -/

theorem jsDedup_nodup {α : Type} [DecidableEq α] (l : List α) : (jsDedup l).Nodup := by
  induction l with
  | nil => simp [jsDedup]
  | cons x xs ih =>
    simp only [jsDedup, List.nodup_cons]
    refine ⟨fun hx => ?_, ih.filter _⟩
    have := List.of_mem_filter hx
    simp at this

theorem mem_jsDedup {α : Type} [DecidableEq α] {a : α} {l : List α} :
    a ∈ jsDedup l ↔ a ∈ l := by
  induction l with
  | nil => simp [jsDedup]
  | cons x xs ih =>
    simp only [jsDedup, List.mem_cons, List.mem_filter, ih]
    by_cases h : a = x <;> simp [h]

theorem jsDedup_sublist {α : Type} [DecidableEq α] (l : List α) : List.Sublist (jsDedup l) l := by
  induction l with
  | nil => simp [jsDedup]
  | cons x xs ih =>
    exact List.Sublist.cons₂ x ((List.filter_sublist _).trans ih)

theorem foldl_min_le_init (l : List Int) (a : Int) : l.foldl min a ≤ a := by
  induction l generalizing a with
  | nil => simp
  | cons x xs ih =>
    simpa using (ih (min a x)).trans (min_le_left a x)

theorem foldl_min_le_mem (l : List Int) (a : Int) {y : Int} (hy : y ∈ l) :
    l.foldl min a ≤ y := by
  induction l generalizing a with
  | nil => cases hy
  | cons x xs ih =>
    simp only [List.foldl_cons]
    rcases List.mem_cons.mp hy with rfl | h
    · exact (foldl_min_le_init xs (min a y)).trans (min_le_right a y)
    · exact ih (min a x) h

theorem foldl_min_mem (l : List Int) (a : Int) :
    l.foldl min a = a ∨ l.foldl min a ∈ l := by
  induction l generalizing a with
  | nil => exact Or.inl rfl
  | cons x xs ih =>
    simp only [List.foldl_cons]
    rcases ih (min a x) with h | h
    · rcases min_choice a x with hm | hm
      · exact Or.inl (h.trans hm)
      · exact Or.inr (List.mem_cons.mpr (Or.inl (h.trans hm)))
    · exact Or.inr (List.mem_cons_of_mem _ h)

theorem foldl_max_le_init (l : List Int) (a : Int) : a ≤ l.foldl max a := by
  induction l generalizing a with
  | nil => simp
  | cons x xs ih =>
    simpa using (le_max_left a x).trans (ih (max a x))

theorem foldl_max_le_mem (l : List Int) (a : Int) {y : Int} (hy : y ∈ l) :
    y ≤ l.foldl max a := by
  induction l generalizing a with
  | nil => cases hy
  | cons x xs ih =>
    simp only [List.foldl_cons]
    rcases List.mem_cons.mp hy with rfl | h
    · exact (le_max_right a y).trans (foldl_max_le_init xs (max a y))
    · exact ih (max a x) h

theorem foldl_max_mem (l : List Int) (a : Int) :
    l.foldl max a = a ∨ l.foldl max a ∈ l := by
  induction l generalizing a with
  | nil => exact Or.inl rfl
  | cons x xs ih =>
    simp only [List.foldl_cons]
    rcases ih (max a x) with h | h
    · rcases max_choice a x with hm | hm
      · exact Or.inl (h.trans hm)
      · exact Or.inr (List.mem_cons.mpr (Or.inl (h.trans hm)))
    · exact Or.inr (List.mem_cons_of_mem _ h)

theorem sqlMin_spec {l : List Int} {m : Int} (h : sqlMin l = some m) :
    m ∈ l ∧ ∀ y ∈ l, m ≤ y := by
  cases l with
  | nil => simp [sqlMin] at h
  | cons x xs =>
    simp only [sqlMin, Option.some.injEq] at h
    subst h
    refine ⟨?_, fun y hy => ?_⟩
    · rcases foldl_min_mem xs x with h | h
      · rw [h]; exact List.mem_cons_self x xs
      · exact List.mem_cons_of_mem _ h
    · rcases List.mem_cons.mp hy with rfl | h
      · exact foldl_min_le_init xs y
      · exact foldl_min_le_mem xs x h

theorem sqlMax_spec {l : List Int} {m : Int} (h : sqlMax l = some m) :
    m ∈ l ∧ ∀ y ∈ l, y ≤ m := by
  cases l with
  | nil => simp [sqlMax] at h
  | cons x xs =>
    simp only [sqlMax, Option.some.injEq] at h
    subst h
    refine ⟨?_, fun y hy => ?_⟩
    · rcases foldl_max_mem xs x with h | h
      · rw [h]; exact List.mem_cons_self x xs
      · exact List.mem_cons_of_mem _ h
    · rcases List.mem_cons.mp hy with rfl | h
      · exact foldl_max_le_init xs y
      · exact foldl_max_le_mem xs x h

theorem sqlMin_eq_none_iff {l : List Int} : sqlMin l = none ↔ l = [] := by
  cases l <;> simp [sqlMin]

theorem sqlMax_eq_none_iff {l : List Int} : sqlMax l = none ↔ l = [] := by
  cases l <;> simp [sqlMax]

theorem sqlMin_perm {l l2 : List Int} (h : l.Perm l2) : sqlMin l = sqlMin l2 := by
  cases hl : sqlMin l with
  | none =>
    rw [sqlMin_eq_none_iff] at hl
    subst hl
    have h2 : l2 = [] := (List.Perm.nil_eq h).symm
    subst h2
    rfl
  | some m =>
    cases hl2 : sqlMin l2 with
    | none =>
      rw [sqlMin_eq_none_iff] at hl2
      subst hl2
      have h2 : l = [] := (List.Perm.nil_eq h.symm).symm
      subst h2
      simp [sqlMin] at hl
    | some m2 =>
      obtain ⟨hmem, hle⟩ := sqlMin_spec hl
      obtain ⟨hmem2, hle2⟩ := sqlMin_spec hl2
      have h1 : m ≤ m2 := hle m2 (h.mem_iff.mpr hmem2)
      have h2 : m2 ≤ m := hle2 m (h.mem_iff.mp hmem)
      rw [le_antisymm h1 h2]

theorem sqlMax_perm {l l2 : List Int} (h : l.Perm l2) : sqlMax l = sqlMax l2 := by
  cases hl : sqlMax l with
  | none =>
    rw [sqlMax_eq_none_iff] at hl
    subst hl
    have h2 : l2 = [] := (List.Perm.nil_eq h).symm
    subst h2
    rfl
  | some m =>
    cases hl2 : sqlMax l2 with
    | none =>
      rw [sqlMax_eq_none_iff] at hl2
      subst hl2
      have h2 : l = [] := (List.Perm.nil_eq h.symm).symm
      subst h2
      simp [sqlMax] at hl
    | some m2 =>
      obtain ⟨hmem, hle⟩ := sqlMax_spec hl
      obtain ⟨hmem2, hle2⟩ := sqlMax_spec hl2
      have h1 : m2 ≤ m := hle m2 (h.mem_iff.mpr hmem2)
      have h2 : m ≤ m2 := hle2 m (h.mem_iff.mp hmem)
      rw [le_antisymm h2 h1]

theorem mem_nonNullStrs {s : String} {col : List Cell} :
    s ∈ nonNullStrs col ↔ Cell.str s ∈ col := by
  simp only [nonNullStrs, List.mem_filterMap]
  constructor
  · rintro ⟨c, hc, hf⟩
    cases c <;> simp_all
  · intro h
    exact ⟨Cell.str s, h, rfl⟩

theorem mem_nonNullInts {i : Int} {col : List Cell} :
    i ∈ nonNullInts col ↔ Cell.int i ∈ col := by
  simp only [nonNullInts, List.mem_filterMap]
  constructor
  · rintro ⟨c, hc, hf⟩
    cases c <;> simp_all
  · intro h
    exact ⟨Cell.int i, h, rfl⟩

/-! ### Claim C5: `analyze` catches data-store errors and keeps partial stats -/

/-- **C5**: `analyze(model, field)` never raises (it is total, returning plain
`FieldStats`): a data-store error in any query is caught and the stats
populated up to the point of failure are returned.  In particular (first
conjunct) a `hasNulls` recorded before a later failing type-specific query is
preserved in the returned stats whatever that later query does, and (second
conjunct) if the very first query fails the still-empty stats object is
returned. -/
theorem analyze_catches_errors_keeps_collected_stats
    (db : DB) (model : Model) (field : Field) :
    (∀ n : Nat, field.isRequired = false →
      db.nullCountQ (tableName model) (colName field) = .ok n →
      (analyze db model field).1.hasNulls = JOpt.val (decide (0 < n)))
    ∧ (∀ e : String, field.isRequired = false →
      db.nullCountQ (tableName model) (colName field) = .error e →
      analyze db model field
        = ({}, [Event.dbNullCount (tableName model) (colName field)])) := by
  constructor
  · intro n hreq hok
    unfold analyze
    simp only [hreq, Bool.false_eq_true, if_false, hok]
    repeat' split
    all_goals simp
  · intro e hreq herr
    unfold analyze
    simp only [hreq, Bool.false_eq_true, if_false, herr]

/-- Witness for C5 at a concrete input: an optional `Int` field whose
null-count query succeeds (2 nulls) and whose min/max aggregate throws. -/
def c5Db : DB where
  nullCountQ := fun _ _ => .ok 2
  sampleQ := fun _ _ _ => .error "connection reset"
  minMaxQ := fun _ _ => .error "connection reset"
  distinctQ := fun _ _ => .error "connection reset"
  aiSampleQ := fun _ _ _ => .error "connection reset"

def c5Field : Field :=
  { name := "age", type := "Int", kind := "scalar", isRequired := false }

def c5Model : Model := { name := "User", fields := [c5Field] }

theorem analyze_catches_errors_witness :
    (analyze c5Db c5Model c5Field).1.hasNulls = JOpt.val (decide (0 < 2)) :=
  (analyze_catches_errors_keeps_collected_stats c5Db c5Model c5Field).1 2 rfl rfl

/-! ### Claim C8: fields outside the supported type families -/

/-- Store for the C8 counterexample: every column is a single SQL `NULL`. -/
def c8Store : Store := fun _ _ => [Cell.null]

def c8Field : Field :=
  { name := "flag", type := "Boolean", kind := "scalar", isRequired := false }

def c8Model : Model := { name := "T", fields := [c8Field] }

/-- **C8** counterexample: for an *optional* `Boolean` field, `analyze` does
attempt a query (the null-count query) and returns a non-empty stats object
(`hasNulls` is set), contradicting the claim that for every
Boolean/DateTime/Json/relation field no statistics are attempted and the
stats object is returned empty. -/
theorem c8_counterexample_optional_boolean :
    analyze (dbOfStore c8Store) c8Model c8Field
        = ({ hasNulls := JOpt.val true }, [Event.dbNullCount "T" "flag"])
      ∧ ({ hasNulls := JOpt.val true } : FieldStats) ≠ ({} : FieldStats) := by
  constructor
  · decide
  · decide

/-- **C8** (amended): for every field whose declared type is `Boolean`,
`DateTime` or `Json` (or a relation-typed field whose type tag is none of the
scalar tags the analyzer dispatches on), `analyze` attempts no type-specific
statistics: a required field triggers no query at all and empty stats; an
optional field triggers exactly the null-presence query, and the returned
stats are empty except possibly `hasNulls`. -/
theorem analyze_no_stats_unsupported_types
    (db : DB) (model : Model) (field : Field)
    (htype : field.type = "Boolean" ∨ field.type = "DateTime" ∨ field.type = "Json" ∨
      (field.kind = "object" ∧ field.type ≠ "String" ∧
        field.type ∉ numericTypes ∧
        strStartsWith field.type "Enum_" = false)) :
    (field.isRequired = true → analyze db model field = ({}, []))
    ∧ (field.isRequired = false →
        analyze db model field
          = (match db.nullCountQ (tableName model) (colName field) with
             | .ok n => ({ hasNulls := JOpt.val (decide (0 < n)) } : FieldStats)
             | .error _ => {},
             [Event.dbNullCount (tableName model) (colName field)])) := by
  have hstr : (field.type = "String") = False := by
    rcases htype with h | h | h | ⟨_, h, _, _⟩ <;> simp [h]
  have hnum : field.type ∉ numericTypes := by
    rcases htype with h | h | h | ⟨_, _, h, _⟩ <;> first | exact h | simp [h, numericTypes]
  have henum : strStartsWith field.type "Enum_" = false := by
    rcases htype with h | h | h | ⟨_, _, _, h⟩ <;> (first | (rw [h]; decide) | exact h)
  constructor
  · intro hreq
    unfold analyze
    simp only [hreq, if_true, hstr, if_false, hnum, henum, Bool.false_eq_true]
  · intro hreq
    unfold analyze
    simp only [hreq, Bool.false_eq_true, if_false, hstr, hnum, henum]
    cases db.nullCountQ (tableName model) (colName field) <;> simp

/-- Witness for C8's amended theorem at a concrete input: a required
`DateTime` field (no query, empty stats) — the theorem applied at `c5Db`. -/
def c8WField : Field :=
  { name := "createdAt", type := "DateTime", kind := "scalar", isRequired := true }

theorem analyze_no_stats_unsupported_types_witness :
    analyze c5Db { name := "T", fields := [c8WField] } c8WField = ({}, []) :=
  (analyze_no_stats_unsupported_types c5Db { name := "T", fields := [c8WField] }
    c8WField (Or.inr (Or.inl rfl))).1 rfl

/-! ### Claim C9: enum fields get the full distinct non-null domain -/

/-- **C9**: for every field of enum kind (type tag starting `Enum_`),
`analyze` issues the distinct-non-null-values query and records in the
returned stats the full set of distinct non-null values of the column —
a duplicate-free list containing exactly the column's non-null values —
together with its cardinality in `distinctCount`. -/
theorem analyze_enum_records_distinct_domain
    (st : Store) (model : Model) (field : Field)
    (henum : strStartsWith field.type "Enum_" = true) :
    ((analyze (dbOfStore st) model field).1.distinctValues
        = JOpt.val (jsDedup (nonNullStrs (st (tableName model) (colName field)))))
    ∧ ((analyze (dbOfStore st) model field).1.distinctCount
        = JOpt.val (jsDedup (nonNullStrs (st (tableName model) (colName field)))).length)
    ∧ (jsDedup (nonNullStrs (st (tableName model) (colName field)))).Nodup
    ∧ (∀ s : String, s ∈ jsDedup (nonNullStrs (st (tableName model) (colName field)))
        ↔ Cell.str s ∈ st (tableName model) (colName field))
    ∧ Event.dbDistinct (tableName model) (colName field)
        ∈ (analyze (dbOfStore st) model field).2 := by
  have hstr : (field.type = "String") = False := by
    simp only [eq_iff_iff, iff_false]
    intro h
    rw [h] at henum
    exact absurd henum (by decide)
  have hnum : field.type ∉ numericTypes := by
    intro hmem
    simp only [numericTypes, List.mem_cons, List.not_mem_nil, or_false] at hmem
    rcases hmem with h | h | h | h <;> rw [h] at henum <;> exact absurd henum (by decide)
  refine ⟨?_, ?_, jsDedup_nodup _, ?_, ?_⟩
  · unfold analyze
    cases hreq : field.isRequired <;>
      simp [hreq, hstr, hnum, henum, dbOfStore]
  · unfold analyze
    cases hreq : field.isRequired <;>
      simp [hreq, hstr, hnum, henum, dbOfStore]
  · intro s
    rw [mem_jsDedup, mem_nonNullStrs]
  · unfold analyze
    cases hreq : field.isRequired <;>
      simp [hreq, hstr, hnum, henum, dbOfStore]

/-- Witness for C9 at a concrete input: an enum column
`[ACTIVE, NULL, BANNED, ACTIVE]` yields distinct values `[ACTIVE, BANNED]`
and cardinality 2. -/
def c9Store : Store := fun _ _ =>
  [Cell.str "ACTIVE", Cell.null, Cell.str "BANNED", Cell.str "ACTIVE"]

def c9Field : Field :=
  { name := "status", type := "Enum_Status", kind := "enum", isRequired := true }

def c9Model : Model := { name := "User", fields := [c9Field] }

theorem analyze_enum_records_distinct_domain_witness :
    (analyze (dbOfStore c9Store) c9Model c9Field).1.distinctValues
        = JOpt.val (jsDedup (nonNullStrs (c9Store "User" "status")))
      ∧ jsDedup (nonNullStrs (c9Store "User" "status")) = ["ACTIVE", "BANNED"] :=
  ⟨(analyze_enum_records_distinct_domain c9Store c9Model c9Field (by decide)).1, by decide⟩

/-! ### Claim C3: numeric min/max are exact full-column aggregates -/

theorem analyze_numeric_eq (st : Store) (model : Model) (field : Field)
    (hnum : field.type ∈ numericTypes) :
    analyze (dbOfStore st) model field =
      ({ min := JOpt.ofSql (sqlMin (nonNullInts (st (tableName model) (colName field)))),
         max := JOpt.ofSql (sqlMax (nonNullInts (st (tableName model) (colName field)))),
         hasNulls := if field.isRequired then JOpt.undef
           else JOpt.val (decide (0 < nullCount (st (tableName model) (colName field)))) },
       (if field.isRequired then ([] : List Event)
         else [Event.dbNullCount (tableName model) (colName field)])
         ++ [Event.dbMinMax (tableName model) (colName field)]) := by
  have hstr : (field.type = "String") = False := by
    simp only [eq_iff_iff, iff_false]
    intro h
    rw [h] at hnum
    simp [numericTypes] at hnum
  unfold analyze
  cases hreq : field.isRequired <;> simp [hreq, hstr, hnum, dbOfStore]

/-- **C3**: for a field of the numeric family (Int/Float/Decimal/BigInt) over
a concrete store, (a) the per-field step emits a rule whose `min` and `max`
are exactly the aggregate results, (b) those are the true column minimum and
maximum over the full column (member of the column and a bound for every
member — no sampling), (c) for a required field the analyzer issues exactly
one query, the min/max aggregate, and (d) the recorded extrema are invariant
under any reordering (permutation) of the column's rows. -/
theorem numeric_min_max_exact
    (st : Store) (cl : Classifier) (delayMs : ℚ) (sampleSize : Nat)
    (model : Model) (field : Field) (mn mx : Int)
    (hnum : field.type ∈ numericTypes)
    (hkind : field.kind ≠ "object")
    (hmn : sqlMin (nonNullInts (st (tableName model) (colName field))) = some mn)
    (hmx : sqlMax (nonNullInts (st (tableName model) (colName field))) = some mx) :
    ((processField (dbOfStore st) cl delayMs sampleSize model field).1
        = .ok (some { field := field.name, type := field.type,
                      nullable := !field.isRequired, unique := false, examples := [],
                      min := JOpt.val mn, max := JOpt.val mx, pattern := JOpt.undef }))
    ∧ (mn ∈ nonNullInts (st (tableName model) (colName field))
        ∧ ∀ y ∈ nonNullInts (st (tableName model) (colName field)), mn ≤ y)
    ∧ (mx ∈ nonNullInts (st (tableName model) (colName field))
        ∧ ∀ y ∈ nonNullInts (st (tableName model) (colName field)), y ≤ mx)
    ∧ (field.isRequired = true →
        (analyze (dbOfStore st) model field).2
          = [Event.dbMinMax (tableName model) (colName field)])
    ∧ (∀ st2 : Store,
        (st2 (tableName model) (colName field)).Perm (st (tableName model) (colName field)) →
        (analyze (dbOfStore st2) model field).1.min = JOpt.val mn
        ∧ (analyze (dbOfStore st2) model field).1.max = JOpt.val mx) := by
  have hstr : (field.type = "String") = False := by
    simp only [eq_iff_iff, iff_false]
    intro h
    rw [h] at hnum
    simp [numericTypes] at hnum
  have heq := analyze_numeric_eq st model field hnum
  have hbr : buildRule (dbOfStore st) cl delayMs sampleSize model field
      = (.ok { field := field.name, type := field.type,
               nullable := !field.isRequired, unique := false, examples := [],
               min := JOpt.val mn, max := JOpt.val mx, pattern := JOpt.undef },
         (analyze (dbOfStore st) model field).2) := by
    unfold buildRule mergeStats
    rw [heq]
    simp [hmn, hmx, hstr, JOpt.ofSql, JOpt.isDefined]
  refine ⟨?_, sqlMin_spec hmn, sqlMax_spec hmx, ?_, ?_⟩
  · unfold processField
    simp [hkind, hbr, ruleUseful, JOpt.isDefined]
  · intro hreq
    rw [heq, hreq]
    simp
  · intro st2 hperm
    have hperm2 := hperm.filterMap
      (fun c => match c with | Cell.int i => some i | _ => none)
    have hmn2 : sqlMin (nonNullInts (st2 (tableName model) (colName field))) = some mn := by
      rw [show nonNullInts (st2 (tableName model) (colName field))
            = (st2 (tableName model) (colName field)).filterMap
              (fun c => match c with | Cell.int i => some i | _ => none) from rfl]
      rw [sqlMin_perm hperm2]
      exact hmn
    have hmx2 : sqlMax (nonNullInts (st2 (tableName model) (colName field))) = some mx := by
      rw [show nonNullInts (st2 (tableName model) (colName field))
            = (st2 (tableName model) (colName field)).filterMap
              (fun c => match c with | Cell.int i => some i | _ => none) from rfl]
      rw [sqlMax_perm hperm2]
      exact hmx
    rw [analyze_numeric_eq st2 model field hnum]
    simp [hmn2, hmx2, JOpt.ofSql]

/-- Witness inputs for C3: an `Int` column `[3, NULL, 1, 5]`. -/
def c3Store : Store := fun _ _ => [Cell.int 3, Cell.null, Cell.int 1, Cell.int 5]

def c3Cl : Classifier := fun _ _ _ => .error "unused"

def c3Field : Field :=
  { name := "id", type := "Int", kind := "scalar", isRequired := true }

def c3Model : Model := { name := "User", fields := [c3Field] }

theorem numeric_min_max_exact_witness :
    (analyze (dbOfStore c3Store) c3Model c3Field).1.min = JOpt.val 1
    ∧ (analyze (dbOfStore c3Store) c3Model c3Field).1.max = JOpt.val 5 :=
  (numeric_min_max_exact c3Store c3Cl 0 50 c3Model c3Field 1 5 (by decide)
    (by decide) (by decide) (by decide)).2.2.2.2 c3Store (List.Perm.refl _)

/-! ### Claim C7: `inferPattern` input processing -/

theorem filterMap_id_map_some {α : Type} (l : List α) :
    (l.map some).filterMap id = l := by
  induction l <;> simp_all

/-- **C7**: `inferPattern` drops null/undefined entries, deduplicates
preserving first-seen order (the submitted list is a duplicate-free sublist
of the filtered input), and truncates to at most 50 samples; when nothing
remains after filtering (including an empty `values`), it returns `none`
with an empty trace — no classifier contact — for every classifier. -/
theorem inferPattern_filters_dedups_truncates
    (cl : Classifier) (modelName fieldName : String) (values : List (Option String)) :
    (values.filterMap id = [] →
      ∀ cl2 : Classifier, inferPattern cl2 modelName fieldName values = (none, []))
    ∧ (values.filterMap id ≠ [] →
        (inferPattern cl modelName fieldName values).2
          = [Event.classify modelName fieldName
              ((jsDedup (values.filterMap id)).take 50)]
        ∧ ((jsDedup (values.filterMap id)).take 50).Nodup
        ∧ ((jsDedup (values.filterMap id)).take 50).length ≤ 50
        ∧ List.Sublist ((jsDedup (values.filterMap id)).take 50)
            (values.filterMap id)) := by
  constructor
  · intro h cl2
    unfold inferPattern
    cases values with
    | nil => rfl
    | cons v vs =>
      simp only [List.isEmpty_cons, Bool.false_eq_true, if_false, h]
      simp [jsDedup]
  · intro h
    have hvne : values.isEmpty = false := by
      cases values with
      | nil => simp at h
      | cons v vs => rfl
    have hsne : ((jsDedup (values.filterMap id)).take 50).isEmpty = false := by
      cases hfm : values.filterMap id with
      | nil => exact absurd hfm h
      | cons a as => simp [jsDedup]
    refine ⟨?_, (List.take_sublist _ _).nodup (jsDedup_nodup _),
      List.length_take_le _ _, (List.take_sublist _ _).trans (jsDedup_sublist _)⟩
    unfold inferPattern
    simp only [hvne, Bool.false_eq_true, if_false, hsne]
    cases hcl : cl modelName fieldName ((jsDedup (values.filterMap id)).take 50) <;>
      simp [hcl]

theorem inferPattern_filters_dedups_truncates_witness :
    (inferPattern c3Cl "User" "email" [some "a", none, some "a", some "b"]).2
      = [Event.classify "User" "email"
          ((jsDedup ([some "a", none, some "a", some "b"].filterMap id)).take 50)]
    ∧ ((jsDedup ([some "a", none, some "a", some "b"].filterMap id)).take 50).Nodup
    ∧ ((jsDedup ([some "a", none, some "a", some "b"].filterMap id)).take 50).length ≤ 50
    ∧ List.Sublist ((jsDedup ([some "a", none, some "a", some "b"].filterMap id)).take 50)
        ([some "a", none, some "a", some "b"].filterMap id) :=
  (inferPattern_filters_dedups_truncates c3Cl "User" "email"
    [some "a", none, some "a", some "b"]).2 (by decide)

/-! ### Claim C6: classifier pattern copied into the rule -/

/-- Store for the C6 counterexample: the `email` column holds one value. -/
def c6Store : Store := fun _ _ => [Cell.str "a"]

/-- Classifier for the C6 counterexample: returns the *empty string* as the
pattern — a non-null string. -/
def c6Cl : Classifier := fun _ _ _ => .ok { pattern := some "", description := "d" }

def c6Field : Field :=
  { name := "email", type := "String", kind := "scalar", isRequired := true }

def c6Model : Model := { name := "M", fields := [c6Field] }

/-- **C6** counterexample: the classifier returns the non-null pattern string
`""`, yet the emitted rule's `pattern` is `undefined`, not `""` — the
recognizer's `object.pattern || undefined` and the aggregator's
`if (aiResult.pattern)` treat the empty string as falsy and drop it. -/
theorem c6_counterexample_empty_string_pattern :
    c6Cl "M" "email" ["a"] = .ok { pattern := some "", format := none, description := "d" }
    ∧ (inferRules (dbOfStore c6Store) c6Cl {} [c6Model]).1
        = .ok [("M", [{ field := "email", type := "String", nullable := false,
                        unique := false, examples := [],
                        min := JOpt.val 1, max := JOpt.val 1,
                        pattern := JOpt.undef }])] := by
  constructor
  · rfl
  · rfl

/-- **C6** (amended): for every `String`, scalar (non-relation), non-list
field whose fetched distinct-value sample is non-empty, if the classifier
returns a non-null **non-empty** pattern string `p`, then a rule is emitted
for that field and its `pattern` equals `p` exactly. -/
theorem string_field_pattern_copied_exactly
    (db : DB) (cl : Classifier) (delayMs : ℚ) (sampleSize : Nat)
    (model : Model) (field : Field) (values : List String) (obj : RawPattern) (p : String)
    (hkind : field.kind ≠ "object")
    (htype : field.type = "String")
    (hlist : field.isList = false)
    (hsample : db.aiSampleQ (tableName model) (colName field) sampleSize = .ok values)
    (hne : values ≠ [])
    (hcl : cl model.name field.name ((jsDedup values).take 50) = .ok obj)
    (hp : obj.pattern = some p)
    (hpne : p ≠ "") :
    Except.map (Option.map ValidationRule.pattern)
        (processField db cl delayMs sampleSize model field).1
      = .ok (some (JOpt.val p)) := by
  have hmapne : (values.map some).isEmpty = false := by
    cases values with
    | nil => exact absurd rfl hne
    | cons a as => rfl
  have hfm : (values.map some).filterMap id = values := filterMap_id_map_some values
  have hsampne : ((jsDedup values).take 50).isEmpty = false := by
    cases values with
    | nil => exact absurd rfl hne
    | cons a as => simp [jsDedup]
  have hip : inferPattern cl model.name field.name (values.map some)
      = (some { pattern := some p, format := obj.format,
                description := some obj.description },
         [Event.classify model.name field.name ((jsDedup values).take 50)]) := by
    unfold inferPattern
    simp only [hmapne, Bool.false_eq_true, if_false, hfm, hsampne, hcl]
    simp [jsOrUndef, hp, hpne]
  have hlen : values.length > 0 := List.length_pos.mpr hne
  unfold processField buildRule
  simp only [hkind, if_false, htype, hlist, hsample, hip]
  simp [hlen, hpne, ruleUseful, JOpt.isDefined, Except.map, Option.map]

/-- Witness data for the amended C6. -/
def c6wCl : Classifier := fun _ _ _ => .ok { pattern := some "^a$", description := "d" }

theorem string_field_pattern_copied_exactly_witness :
    Except.map (Option.map ValidationRule.pattern)
        (processField (dbOfStore c6Store) c6wCl 0 50 c6Model c6Field).1
      = .ok (some (JOpt.val "^a$")) :=
  string_field_pattern_copied_exactly (dbOfStore c6Store) c6wCl 0 50 c6Model c6Field
    ["a"] { pattern := some "^a$", description := "d" } "^a$"
    (by decide) rfl rfl rfl (by decide) rfl rfl (by decide)

/-! ### Claim C4: rate limiting -/

theorem totalSleep_append (a b : List Event) :
    totalSleep (a ++ b) = totalSleep a + totalSleep b := by
  induction a with
  | nil => simp [totalSleep]
  | cons e rest ih => cases e <;> simp [totalSleep, ih] <;> ring

theorem numClassify_append (a b : List Event) :
    numClassify (a ++ b) = numClassify a + numClassify b := by
  induction a with
  | nil => simp [numClassify]
  | cons e rest ih => cases e <;> simp [numClassify, ih] <;> omega

theorem sleepAfterClassify_append {d : ℚ} {a b : List Event}
    (ha : sleepAfterClassify d a = true) (hb : sleepAfterClassify d b = true) :
    sleepAfterClassify d (a ++ b) = true := by
  induction a with
  | nil => simpa using hb
  | cons e rest ih =>
    cases e with
    | classify x y z =>
      cases rest with
      | nil => simp [sleepAfterClassify] at ha
      | cons e2 rest2 =>
        cases e2 <;> simp only [sleepAfterClassify, Bool.and_eq_true,
          decide_eq_true_eq, List.cons_append] at ha ⊢ <;>
          first
          | exact ha
          | exact ⟨ha.1, by simpa using ih ha.2⟩
    | dbNullCount x y =>
      simp only [sleepAfterClassify, List.cons_append] at ha ⊢
      exact ih ha
    | dbSample x y n =>
      simp only [sleepAfterClassify, List.cons_append] at ha ⊢
      exact ih ha
    | dbMinMax x y =>
      simp only [sleepAfterClassify, List.cons_append] at ha ⊢
      exact ih ha
    | dbDistinct x y =>
      simp only [sleepAfterClassify, List.cons_append] at ha ⊢
      exact ih ha
    | dbAiSample x y n =>
      simp only [sleepAfterClassify, List.cons_append] at ha ⊢
      exact ih ha
    | sleep q =>
      simp only [sleepAfterClassify, List.cons_append] at ha ⊢
      exact ih ha

theorem trace_ok_analyze (db : DB) (model : Model) (field : Field) (d : ℚ) :
    sleepAfterClassify d (analyze db model field).2 = true
    ∧ totalSleep (analyze db model field).2 = 0
    ∧ numClassify (analyze db model field).2 = 0 := by
  unfold analyze
  dsimp only
  by_cases hreq : field.isRequired = true
  · rw [if_pos hreq]
    dsimp only
    repeat' split
    all_goals simp [sleepAfterClassify, totalSleep, numClassify]
  · rw [if_neg hreq]
    cases hnc : db.nullCountQ (tableName model) (colName field) <;> dsimp only <;>
      (repeat' split) <;> simp [sleepAfterClassify, totalSleep, numClassify]

theorem inferPattern_map_some_trace (cl : Classifier) (mname fname : String)
    (values : List String) (hne : values ≠ []) :
    (inferPattern cl mname fname (values.map some)).2
      = [Event.classify mname fname ((jsDedup values).take 50)] := by
  have hmapne : (values.map some).isEmpty = false := by
    cases values with
    | nil => exact absurd rfl hne
    | cons a as => rfl
  have hfm := filterMap_id_map_some values
  have hsampne : ((jsDedup values).take 50).isEmpty = false := by
    cases values with
    | nil => exact absurd rfl hne
    | cons a as => simp [jsDedup]
  unfold inferPattern
  simp only [hmapne, Bool.false_eq_true, if_false, hfm, hsampne]
  cases hcl : cl mname fname ((jsDedup values).take 50) <;> simp [hcl]

theorem trace_ok_buildRule (db : DB) (cl : Classifier) (delayMs : ℚ) (ss : Nat)
    (model : Model) (field : Field) :
    sleepAfterClassify delayMs (buildRule db cl delayMs ss model field).2 = true
    ∧ totalSleep (buildRule db cl delayMs ss model field).2
        = (numClassify (buildRule db cl delayMs ss model field).2 : ℚ) * delayMs := by
  obtain ⟨ha1, ha2, ha3⟩ := trace_ok_analyze db model field delayMs
  unfold buildRule
  split
  · cases hq : db.aiSampleQ (tableName model) (colName field) ss with
    | error e =>
      simp only [hq]
      refine ⟨sleepAfterClassify_append ha1 (by simp [sleepAfterClassify]), ?_⟩
      simp [totalSleep_append, numClassify_append, ha2, ha3, totalSleep, numClassify]
    | ok values =>
      simp only [hq]
      by_cases hlen : 0 < values.length
      · have hvne : values ≠ [] := by
          cases values
          · simp at hlen
          · simp
        have hip := inferPattern_map_some_trace cl model.name field.name values hvne
        rw [if_pos hlen]
        simp only [hip]
        repeat' split
        all_goals constructor
        all_goals simp only [List.append_assoc, List.cons_append, List.nil_append]
        all_goals first
          | exact sleepAfterClassify_append ha1 (by simp [sleepAfterClassify])
          | (simp [totalSleep_append, numClassify_append, ha2, ha3,
              totalSleep, numClassify]; try push_cast; try ring)
      · rw [if_neg hlen]
        refine ⟨sleepAfterClassify_append ha1 (by simp [sleepAfterClassify]), ?_⟩
        simp [totalSleep_append, numClassify_append, ha2, ha3, totalSleep, numClassify]
  · exact ⟨ha1, by rw [ha2, ha3]; simp⟩

theorem trace_ok_processField (db : DB) (cl : Classifier) (delayMs : ℚ) (ss : Nat)
    (model : Model) (field : Field) :
    sleepAfterClassify delayMs (processField db cl delayMs ss model field).2 = true
    ∧ totalSleep (processField db cl delayMs ss model field).2
        = (numClassify (processField db cl delayMs ss model field).2 : ℚ) * delayMs := by
  obtain ⟨hb1, hb2⟩ := trace_ok_buildRule db cl delayMs ss model field
  unfold processField
  split
  · refine ⟨rfl, ?_⟩
    show totalSleep [] = (numClassify ([] : List Event) : ℚ) * delayMs
    simp [totalSleep, numClassify]
  · rcases hbr : buildRule db cl delayMs ss model field with ⟨r, tr⟩
    rw [hbr] at hb1 hb2
    rcases r with e | r <;> exact ⟨hb1, hb2⟩

theorem trace_ok_processFields (db : DB) (cl : Classifier) (delayMs : ℚ) (ss : Nat)
    (model : Model) (fs : List Field) :
    sleepAfterClassify delayMs (processFields db cl delayMs ss model fs).2 = true
    ∧ totalSleep (processFields db cl delayMs ss model fs).2
        = (numClassify (processFields db cl delayMs ss model fs).2 : ℚ) * delayMs := by
  induction fs with
  | nil => simp [processFields, sleepAfterClassify, totalSleep, numClassify]
  | cons f fs ih =>
    obtain ⟨hp1, hp2⟩ := trace_ok_processField db cl delayMs ss model f
    unfold processFields
    rcases hpf : processField db cl delayMs ss model f with ⟨r, tr⟩
    rw [hpf] at hp1 hp2
    rcases r with e | o
    · exact ⟨hp1, hp2⟩
    · rcases o with _ | rule <;>
      · refine ⟨sleepAfterClassify_append hp1 ih.1, ?_⟩
        simp only [totalSleep_append, numClassify_append, hp2, ih.2]
        push_cast
        ring

theorem trace_ok_inferRulesAux (db : DB) (cl : Classifier) (delayMs : ℚ) (ss : Nat)
    (models : List Model) (acc : RuleMap) :
    sleepAfterClassify delayMs (inferRulesAux db cl delayMs ss models acc).2 = true
    ∧ totalSleep (inferRulesAux db cl delayMs ss models acc).2
        = (numClassify (inferRulesAux db cl delayMs ss models acc).2 : ℚ) * delayMs := by
  induction models generalizing acc with
  | nil => simp [inferRulesAux, sleepAfterClassify, totalSleep, numClassify]
  | cons m ms ih =>
    obtain ⟨hp1, hp2⟩ := trace_ok_processFields db cl delayMs ss m m.fields
    unfold inferRulesAux
    rcases hpf : processFields db cl delayMs ss m m.fields with ⟨r, tr⟩
    rw [hpf] at hp1 hp2
    rcases r with e | rules
    · exact ⟨hp1, hp2⟩
    · refine ⟨sleepAfterClassify_append hp1 (ih _).1, ?_⟩
      simp only [totalSleep_append, numClassify_append, hp2, (ih _).2]
      push_cast
      ring

/-- **C4**: rate limiting of classifier calls in one `inferRules` run.  In
the run's trace, (1) every classifier call is *immediately* followed by a
sleep of exactly `delayMs = 60000/RPM` milliseconds (the delay is applied
after the call completes and before anything further is issued, so
consecutive classifier calls are separated by at least `delayMs`); (2) the
total time slept equals `N · delayMs` for `N` classifier calls, hence (3) it
is at least `(N − 1) · delayMs`; and (4) when `requestsPerMinute` is
unspecified the budget falls back to 10 RPM, i.e. `delayMs = 6000`. -/
theorem rate_limiting_enforced (db : DB) (cl : Classifier)
    (cfg : InferenceConfig) (models : List Model) :
    sleepAfterClassify (delayMsOf cfg) (inferRules db cl cfg models).2 = true
    ∧ totalSleep (inferRules db cl cfg models).2
        = (numClassify (inferRules db cl cfg models).2 : ℚ) * delayMsOf cfg
    ∧ ((numClassify (inferRules db cl cfg models).2 - 1 : ℕ) : ℚ) * delayMsOf cfg
        ≤ totalSleep (inferRules db cl cfg models).2
    ∧ (cfg.requestsPerMinute = none → delayMsOf cfg = 6000) := by
  unfold inferRules
  obtain ⟨h1, h2⟩ := trace_ok_inferRulesAux db cl (delayMsOf cfg) (sampleSizeOf cfg)
    models []
  refine ⟨h1, h2, ?_, ?_⟩
  · rw [h2]
    have hd : 0 ≤ delayMsOf cfg := by
      unfold delayMsOf
      positivity
    have hle : ((numClassify (inferRules db cl cfg models).2 - 1 : ℕ) : ℚ)
        ≤ (numClassify (inferRules db cl cfg models).2 : ℚ) := by
      exact_mod_cast Nat.sub_le _ 1
    exact mul_le_mul_of_nonneg_right hle hd
  · intro h
    unfold delayMsOf rpmOf
    rw [h]
    norm_num

/-- Witness for C4 at a concrete run (one String field, classifier called
once, default configuration): one sleep of 6000 ms is recorded. -/
def c4Store : Store := fun _ _ => [Cell.str "x"]

def c4Field : Field :=
  { name := "code", type := "String", kind := "scalar", isRequired := true }

def c4Model : Model := { name := "Item", fields := [c4Field] }

theorem rate_limiting_enforced_witness :
    sleepAfterClassify (delayMsOf {}) (inferRules (dbOfStore c4Store) c3Cl {} [c4Model]).2
        = true
    ∧ totalSleep (inferRules (dbOfStore c4Store) c3Cl {} [c4Model]).2
        = (numClassify (inferRules (dbOfStore c4Store) c3Cl {} [c4Model]).2 : ℚ)
            * delayMsOf {}
    ∧ delayMsOf {} = 6000 :=
  ⟨(rate_limiting_enforced (dbOfStore c4Store) c3Cl {} [c4Model]).1,
   (rate_limiting_enforced (dbOfStore c4Store) c3Cl {} [c4Model]).2.1,
   (rate_limiting_enforced (dbOfStore c4Store) c3Cl {} [c4Model]).2.2.2 rfl⟩

/-! ### Claim C2: relation fields are skipped entirely -/

theorem analyze_model_congr (db : DB) (m2 m : Model) (f : Field)
    (h : tableName m2 = tableName m) :
    analyze db m2 f = analyze db m f := by
  unfold analyze
  rw [h]

theorem buildRule_model_congr (db : DB) (cl : Classifier) (delayMs : ℚ) (ss : Nat)
    (m2 m : Model) (f : Field)
    (htab : tableName m2 = tableName m) (hname : m2.name = m.name) :
    buildRule db cl delayMs ss m2 f = buildRule db cl delayMs ss m f := by
  unfold buildRule
  rw [analyze_model_congr db m2 m f htab, htab, hname]

theorem processField_model_congr (db : DB) (cl : Classifier) (delayMs : ℚ) (ss : Nat)
    (m2 m : Model) (f : Field)
    (htab : tableName m2 = tableName m) (hname : m2.name = m.name) :
    processField db cl delayMs ss m2 f = processField db cl delayMs ss m f := by
  unfold processField
  rw [buildRule_model_congr db cl delayMs ss m2 m f htab hname]

theorem processFields_model_congr (db : DB) (cl : Classifier) (delayMs : ℚ) (ss : Nat)
    (m2 m : Model) (fs : List Field)
    (htab : tableName m2 = tableName m) (hname : m2.name = m.name) :
    processFields db cl delayMs ss m2 fs = processFields db cl delayMs ss m fs := by
  induction fs with
  | nil => rfl
  | cons f fs ih =>
    unfold processFields
    rw [processField_model_congr db cl delayMs ss m2 m f htab hname, ih]

theorem processField_object (db : DB) (cl : Classifier) (delayMs : ℚ) (ss : Nat)
    (m : Model) (f : Field) (h : f.kind = "object") :
    processField db cl delayMs ss m f = (.ok none, []) := by
  unfold processField
  simp [h]

theorem processFields_filter_object (db : DB) (cl : Classifier) (delayMs : ℚ)
    (ss : Nat) (m : Model) (fs : List Field) :
    processFields db cl delayMs ss m (fs.filter (fun f => f.kind ≠ "object"))
      = processFields db cl delayMs ss m fs := by
  induction fs with
  | nil => rfl
  | cons f fs ih =>
    by_cases h : f.kind = "object"
    · rw [List.filter_cons_of_neg (by simp [h]), ih]
      conv_rhs => unfold processFields
      rw [processField_object db cl delayMs ss m f h]
      simp
    · rw [List.filter_cons_of_pos (by simp [h])]
      unfold processFields
      rw [ih]

theorem inferRulesAux_strip_object (db : DB) (cl : Classifier) (delayMs : ℚ)
    (ss : Nat) (models : List Model) (acc : RuleMap) :
    inferRulesAux db cl delayMs ss
        (models.map (fun m => { m with fields := m.fields.filter (fun f => f.kind ≠ "object") }))
        acc
      = inferRulesAux db cl delayMs ss models acc := by
  induction models generalizing acc with
  | nil => rfl
  | cons m ms ih =>
    simp only [List.map_cons]
    conv_lhs => unfold inferRulesAux
    conv_rhs => unfold inferRulesAux
    rw [show ({ m with fields := m.fields.filter (fun f => f.kind ≠ "object") } : Model).fields
          = m.fields.filter (fun f => f.kind ≠ "object") from rfl]
    rw [processFields_model_congr db cl delayMs ss
          { m with fields := m.fields.filter (fun f => f.kind ≠ "object") } m
          (m.fields.filter (fun f => f.kind ≠ "object")) rfl rfl,
        processFields_filter_object db cl delayMs ss m m.fields]
    rcases hpf : processFields db cl delayMs ss m m.fields with ⟨r, tr⟩
    rcases r with e | rules
    · rfl
    · simp only []
      rw [ih]

/-- **C2**: relation (`kind = "object"`) fields are skipped before any
evidence gathering: deleting every relation field from the input changes
*nothing* — the returned rule map and the entire trace of data-store queries,
classifier calls and sleeps are identical.  In particular no rule is ever
emitted for a relation field and no query or classifier call is ever issued
for one, for every input model list. -/
theorem relation_fields_skipped (db : DB) (cl : Classifier)
    (cfg : InferenceConfig) (models : List Model) :
    inferRules db cl cfg models
      = inferRules db cl cfg
          (models.map (fun m =>
            { m with fields := m.fields.filter (fun f => f.kind ≠ "object") })) := by
  unfold inferRules
  rw [inferRulesAux_strip_object]

/-! ### Claims C1 and C10: what ends up in the returned rule map -/

theorem mem_mapSet {m : RuleMap} {k : String} {v : List ValidationRule}
    {p : String × List ValidationRule} (hp : p ∈ mapSet m k v) :
    p ∈ m ∨ p = (k, v) := by
  unfold mapSet at hp
  split at hp
  · obtain ⟨q, hq, hfq⟩ := List.mem_map.mp hp
    by_cases h : q.1 = k
    · right
      rw [← hfq, if_pos h]
    · left
      rw [← hfq, if_neg h]
      exact hq
  · rcases List.mem_append.mp hp with h | h
    · exact Or.inl h
    · exact Or.inr (by simpa using h)

theorem processFields_mem {db : DB} {cl : Classifier} {delayMs : ℚ} {ss : Nat}
    {model : Model} {fs : List Field} {rs : List ValidationRule} {r : ValidationRule}
    (h : (processFields db cl delayMs ss model fs).1 = .ok rs) (hr : r ∈ rs) :
    ∃ f ∈ fs, (processField db cl delayMs ss model f).1 = .ok (some r) := by
  induction fs generalizing rs with
  | nil =>
    unfold processFields at h
    simp only [Except.ok.injEq] at h
    subst h
    cases hr
  | cons f fs ih =>
    unfold processFields at h
    rcases hpf : processField db cl delayMs ss model f with ⟨pr, ptr⟩
    rw [hpf] at h
    rcases pr with e | o
    · simp at h
    · rcases o with _ | rule
      · simp only [] at h
        obtain ⟨f2, hf2, hp2⟩ := ih h hr
        exact ⟨f2, List.mem_cons_of_mem _ hf2, hp2⟩
      · simp only [] at h
        rcases hrest : (processFields db cl delayMs ss model fs).1 with e2 | rs2
        · rw [hrest] at h
          simp at h
        · rw [hrest] at h
          simp only [Except.ok.injEq] at h
          subst h
          rcases List.mem_cons.mp hr with rfl | hr2
          · exact ⟨f, List.mem_cons_self f fs, by rw [hpf]⟩
          · obtain ⟨f2, hf2, hp2⟩ := ih hrest hr2
            exact ⟨f2, List.mem_cons_of_mem _ hf2, hp2⟩

theorem inferRulesAux_mem {db : DB} {cl : Classifier} {delayMs : ℚ} {ss : Nat}
    {models : List Model} {acc out : RuleMap}
    {n : String} {rs : List ValidationRule}
    (h : (inferRulesAux db cl delayMs ss models acc).1 = .ok out)
    (hm : (n, rs) ∈ out) :
    (n, rs) ∈ acc
    ∨ ∃ m ∈ models, n = m.name ∧ rs ≠ []
        ∧ (processFields db cl delayMs ss m m.fields).1 = .ok rs := by
  induction models generalizing acc with
  | nil =>
    unfold inferRulesAux at h
    simp only [Except.ok.injEq] at h
    subst h
    exact Or.inl hm
  | cons m ms ih =>
    unfold inferRulesAux at h
    rcases hpf : processFields db cl delayMs ss m m.fields with ⟨pr, ptr⟩
    rw [hpf] at h
    rcases pr with e | rules
    · simp at h
    · simp only [] at h
      rcases ih h with hin | ⟨m2, hm2, hrest⟩
      · by_cases hempty : rules.isEmpty
        · rw [if_pos hempty] at hin
          exact Or.inl hin
        · rw [if_neg hempty] at hin
          rcases mem_mapSet hin with hin2 | heq
          · exact Or.inl hin2
          · right
            obtain ⟨hn, hrs⟩ := Prod.mk.injEq .. ▸ heq
            refine ⟨m, List.mem_cons_self m ms, hn, ?_, ?_⟩
            · subst hrs
              intro hc
              rw [hc] at hempty
              simp at hempty
            · rw [hpf, hrs]
      · exact Or.inr ⟨m2, List.mem_cons_of_mem _ hm2, hrest⟩

theorem mergeStats_base (field : Field) (stats : FieldStats) :
    (mergeStats field stats).field = field.name
    ∧ (mergeStats field stats).type = field.type
    ∧ (mergeStats field stats).nullable = !field.isRequired
    ∧ (mergeStats field stats).unique = false
    ∧ (mergeStats field stats).examples = [] := by
  unfold mergeStats
  dsimp only
  repeat' split
  all_goals simp

theorem buildRule_ok_shape (db : DB) (cl : Classifier) (delayMs : ℚ) (ss : Nat)
    (model : Model) (field : Field) :
    (∃ e tr, buildRule db cl delayMs ss model field = (.error e, tr))
    ∨ (∃ tr, buildRule db cl delayMs ss model field
        = (.ok (mergeStats field (analyze db model field).1), tr))
    ∨ (∃ p tr, buildRule db cl delayMs ss model field
        = (.ok { mergeStats field (analyze db model field).1 with pattern := JOpt.val p },
           tr)) := by
  unfold buildRule
  dsimp only
  repeat' split
  all_goals first
    | exact Or.inl ⟨_, _, rfl⟩
    | exact Or.inr (Or.inl ⟨_, rfl⟩)
    | exact Or.inr (Or.inr ⟨_, _, rfl⟩)

theorem buildRule_base {db : DB} {cl : Classifier} {delayMs : ℚ} {ss : Nat}
    {model : Model} {field : Field} {r : ValidationRule} {tr : List Event}
    (h : buildRule db cl delayMs ss model field = (.ok r, tr)) :
    r.field = field.name ∧ r.type = field.type ∧ r.nullable = !field.isRequired
    ∧ r.unique = false ∧ r.examples = [] := by
  rcases buildRule_ok_shape db cl delayMs ss model field with
    ⟨e, tr2, hs⟩ | ⟨tr2, hs⟩ | ⟨p, tr2, hs⟩
  · rw [h] at hs
    simp at hs
  · rw [h] at hs
    simp only [Prod.mk.injEq, Except.ok.injEq] at hs
    rw [hs.1]
    exact mergeStats_base field (analyze db model field).1
  · rw [h] at hs
    simp only [Prod.mk.injEq, Except.ok.injEq] at hs
    rw [hs.1]
    simpa using (mergeStats_base field (analyze db model field).1)

theorem ruleUseful_iff (r : ValidationRule) :
    ruleUseful r = true
      ↔ (r.min ≠ JOpt.undef ∨ r.max ≠ JOpt.undef ∨ r.pattern ≠ JOpt.undef) := by
  unfold ruleUseful JOpt.isDefined
  rcases r with ⟨f, t, nu, un, ex, mi, ma, pa⟩
  cases mi <;> cases ma <;> cases pa <;> simp

theorem processField_some_facts {db : DB} {cl : Classifier} {delayMs : ℚ} {ss : Nat}
    {model : Model} {field : Field} {r : ValidationRule}
    (h : (processField db cl delayMs ss model field).1 = .ok (some r)) :
    ruleUseful r = true ∧ field.kind ≠ "object"
    ∧ ∃ tr, buildRule db cl delayMs ss model field = (.ok r, tr) := by
  unfold processField at h
  by_cases hk : field.kind = "object"
  · rw [if_pos hk] at h
    simp at h
  · rw [if_neg hk] at h
    rcases hbr : buildRule db cl delayMs ss model field with ⟨pr, ptr⟩
    rw [hbr] at h
    rcases pr with e | r0
    · simp at h
    · simp only [] at h
      by_cases hu : ruleUseful r0
      · rw [if_pos hu] at h
        simp only [Except.ok.injEq, Option.some.injEq] at h
        subst h
        exact ⟨hu, hk, ptr, rfl⟩
      · rw [if_neg hu] at h
        simp at h

/-- **C1**: (first conjunct) every rule present in the returned map has at
least one of `min`, `max`, `pattern` defined (≠ `undefined`); (second
conjunct) per field, the candidate rule built by merging both evidence
sources is appended iff at least one of those three slots ended up defined,
and a field for which neither evidence source populated any of them
contributes no rule. -/
theorem rule_emitted_iff_slot_populated (db : DB) (cl : Classifier)
    (cfg : InferenceConfig) (models : List Model) :
    (∀ out, (inferRules db cl cfg models).1 = .ok out →
      ∀ n rs, (n, rs) ∈ out → ∀ r ∈ rs,
        r.min ≠ JOpt.undef ∨ r.max ≠ JOpt.undef ∨ r.pattern ≠ JOpt.undef)
    ∧ (∀ model field r tr, field.kind ≠ "object" →
        buildRule db cl (delayMsOf cfg) (sampleSizeOf cfg) model field = (.ok r, tr) →
        (((processField db cl (delayMsOf cfg) (sampleSizeOf cfg) model field).1
            = .ok (some r))
          ↔ (r.min ≠ JOpt.undef ∨ r.max ≠ JOpt.undef ∨ r.pattern ≠ JOpt.undef))
        ∧ ((r.min = JOpt.undef ∧ r.max = JOpt.undef ∧ r.pattern = JOpt.undef) →
            (processField db cl (delayMsOf cfg) (sampleSizeOf cfg) model field).1
              = .ok none)) := by
  constructor
  · intro out hout n rs hmem r hr
    unfold inferRules at hout
    rcases inferRulesAux_mem hout hmem with hin | ⟨m, hm, hn, hne, hpf⟩
    · cases hin
    · obtain ⟨f, hf, hpfield⟩ := processFields_mem hpf hr
      exact (ruleUseful_iff r).mp (processField_some_facts hpfield).1
  · intro model field r tr hkind hbr
    have hpf : (processField db cl (delayMsOf cfg) (sampleSizeOf cfg) model field).1
        = .ok (if ruleUseful r then some r else none) := by
      unfold processField
      rw [if_neg hkind, hbr]
    constructor
    · rw [hpf]
      constructor
      · intro h
        by_cases hu : ruleUseful r
        · exact (ruleUseful_iff r).mp hu
        · rw [if_neg hu] at h
          simp at h
      · intro h
        rw [if_pos ((ruleUseful_iff r).mpr h)]
    · rintro ⟨h1, h2, h3⟩
      rw [hpf, if_neg]
      intro hc
      rcases (ruleUseful_iff r).mp hc with hx | hx | hx
      · exact hx h1
      · exact hx h2
      · exact hx h3

/-- The rule produced by the C1/C10 witness run. -/
def c1Rule : ValidationRule :=
  { field := "id", type := "Int", nullable := false, unique := false, examples := [],
    min := JOpt.val 1, max := JOpt.val 5, pattern := JOpt.undef }

theorem rule_emitted_iff_slot_populated_witness :
    c1Rule.min ≠ JOpt.undef ∨ c1Rule.max ≠ JOpt.undef ∨ c1Rule.pattern ≠ JOpt.undef :=
  (rule_emitted_iff_slot_populated (dbOfStore c3Store) c3Cl {} [c3Model]).1
    [("User", [c1Rule])] rfl "User" [c1Rule] (by decide) c1Rule (by decide)

/-- **C10**: every rule in the returned map has `unique = false`,
`examples = []`, and `field`/`type`/`nullable` equal to the originating
field's name, declared type tag, and negated `isRequired` flag, for every
input and whatever evidence was gathered. -/
theorem rule_base_fields_fixed (db : DB) (cl : Classifier)
    (cfg : InferenceConfig) (models : List Model) :
    ∀ out, (inferRules db cl cfg models).1 = .ok out →
    ∀ n rs, (n, rs) ∈ out → ∀ r ∈ rs,
      r.unique = false ∧ r.examples = []
      ∧ ∃ m ∈ models, n = m.name ∧ ∃ f ∈ m.fields,
          r.field = f.name ∧ r.type = f.type ∧ r.nullable = !f.isRequired := by
  intro out hout n rs hmem r hr
  unfold inferRules at hout
  rcases inferRulesAux_mem hout hmem with hin | ⟨m, hm, hn, hne, hpf⟩
  · cases hin
  · obtain ⟨f, hf, hpfield⟩ := processFields_mem hpf hr
    obtain ⟨hu, hk, tr, hbr⟩ := processField_some_facts hpfield
    obtain ⟨h1, h2, h3, h4, h5⟩ := buildRule_base hbr
    exact ⟨h4, h5, m, hm, hn, f, hf, h1, h2, h3⟩

theorem rule_base_fields_fixed_witness :
    c1Rule.unique = false ∧ c1Rule.examples = []
    ∧ ∃ m ∈ [c3Model], "User" = m.name ∧ ∃ f ∈ m.fields,
        c1Rule.field = f.name ∧ c1Rule.type = f.type
        ∧ c1Rule.nullable = !f.isRequired :=
  rule_base_fields_fixed (dbOfStore c3Store) c3Cl {} [c3Model]
    [("User", [c1Rule])] rfl "User" [c1Rule] (by decide) c1Rule (by decide)

end LivingContracts
